import Mathlib

/-!
Verification of the VaultAI vault-synchronization and retrieval engine
(`RAGService`, embedded source in MCP_INTEGRATION.md; chat routing and
citation extraction in main.ts).

The embedding is shallow: the `syncedFiles` JavaScript `Map` becomes an
association list with `Map.set`/`Map.get` semantics, the remote File Search
backend (create / delete / upload+poll / generateContent) is an external
collaborator and is modelled by outcome oracles passed as function
arguments, and the async sequential loops become structural recursion with
explicit state threading.
-/

namespace VaultAI

/-- A vault document as seen by the sync engine: an Obsidian `TFile`
(`path`, basename `name`, modification time `stat.mtime`) together with the
content returned by `vault.read`. -/
structure Document where
  path : String
  name : String
  content : String
  mtime : Nat
  deriving Repr, DecidableEq

/-- `FileMetadata` from RAGService: one per-document sync record. -/
structure FileMetadata where
  path : String
  hash : String
  lastModified : Nat
  uploaded : Bool
  uploadedAt : Option Nat
  deriving Repr, DecidableEq

/-- The `status` field of `SyncProgress`. -/
inductive SyncStatus where
  | idle
  | syncing
  | completed
  | error
  deriving Repr, DecidableEq

/-- `SyncProgress` from RAGService (ephemeral progress tracking). -/
structure SyncProgress where
  total : Nat
  processed : Nat
  current : String
  status : SyncStatus
  deriving Repr, DecidableEq

/-- The `{success, failed, skipped}` record returned by `syncVault`. -/
structure SyncSummary where
  success : Nat
  failed : Nat
  skipped : Nat
  deriving Repr, DecidableEq

/-- The `syncedFiles : Map<string, FileMetadata>` field, as an association
list in insertion order (JavaScript `Map` iteration order). Keys stay
unique because all writes go through `mapSet`. -/
abbrev SyncedFiles := List (String × FileMetadata)

/-- `Map.get`: first (and only) binding of the key. -/
def mapGet : SyncedFiles → String → Option FileMetadata
  | [], _ => none
  | (a, b) :: t, k => if a = k then some b else mapGet t k

/-- `Map.set`: replace the existing binding in place, else append. -/
def mapSet : SyncedFiles → String → FileMetadata → SyncedFiles
  | [], k, v => [(k, v)]
  | (a, b) :: t, k, v => if a = k then (k, v) :: t else (a, b) :: mapSet t k v

/-- `RAGService.getVaultFiles`: all markdown files, or those under a folder
path; a missing, empty (falsy) or `"/"` path selects the whole vault. -/
def getVaultFiles (folderPath : Option String) (docs : List Document) : List Document :=
  match folderPath with
  | none => docs
  | some p => if p = "" ∨ p = "/" then docs else docs.filter (fun f => f.path.startsWith p)

/-- The per-file condition of `RAGService.getFilesToSync`: no record yet, or
the stored hash differs from the hash of the current content. The content
hasher (`calculateHash`, SHA-256 via Web Crypto) is an external collaborator
and enters as the function argument `hash`. -/
def needsSync (hash : String → String) (m : SyncedFiles) (f : Document) : Bool :=
  match mapGet m f.path with
  | none => true
  | some md => md.hash ≠ hash f.content

/-- `RAGService.getFilesToSync`: the delta selector. -/
def getFilesToSync (hash : String → String) (m : SyncedFiles)
    (folderPath : Option String) (docs : List Document) : List Document :=
  (getVaultFiles folderPath docs).filter (needsSync hash m)

/-- The record `uploadFile` writes on success:
`{path, hash, lastModified: mtime, uploaded: true, uploadedAt: now}`. -/
def newRecord (hash : String → String) (now : Nat) (f : Document) : FileMetadata :=
  ⟨f.path, hash f.content, f.mtime, true, some now⟩

/-- `RAGService.uploadFile`. The remote upload-and-poll exchange (including
store auto-initialization, the 60-attempt poll ceiling, and the catch-all
returning `false`) is the external backend; its net outcome for a document
is the oracle `upload`. On success the sync record is written with the
freshly computed hash and `uploadedAt = now`; on failure nothing is
written. -/
def uploadFile (hash : String → String) (upload : Document → Bool) (now : Nat)
    (f : Document) (m : SyncedFiles) : Bool × SyncedFiles :=
  if upload f then
    (true, mapSet m f.path (newRecord hash now f))
  else
    (false, m)

/-- The mutable state threaded through the `for (const file of filesToSync)`
loop of `syncVault`, plus the list of `SyncProgress` values observed by the
`progressCallback` (in invocation order). -/
structure LoopState where
  prog : SyncProgress
  files : SyncedFiles
  successCount : Nat
  failedCount : Nat
  trace : List SyncProgress
  deriving Repr, DecidableEq

/-- The body loop of `RAGService.syncVault`: per file, set
`syncProgress.current`, invoke the callback, attempt the upload, bump the
success/failed counter, then increment `syncProgress.processed`. -/
def syncLoop (hash : String → String) (upload : Document → Bool) (now : Nat) :
    List Document → LoopState → LoopState
  | [], s => s
  | f :: rest, s =>
    let prog1 : SyncProgress := { s.prog with current := f.name }
    let r := uploadFile hash upload now f s.files
    syncLoop hash upload now rest
      { prog := { prog1 with processed := prog1.processed + 1 }
        files := r.2
        successCount := s.successCount + (if r.1 then 1 else 0)
        failedCount := s.failedCount + (if r.1 then 0 else 1)
        trace := s.trace ++ [prog1] }

/-- The full result of one `syncVault` call. -/
structure SyncResult where
  summary : SyncSummary
  files : SyncedFiles
  progress : SyncProgress
  trace : List SyncProgress
  deriving Repr, DecidableEq

/-- `RAGService.syncVault`: compute the delta, short-circuit when it is
empty, otherwise run the upload loop and finish with status `completed` and
`current` cleared (the callback fires once more after the loop). -/
def syncVault (hash : String → String) (upload : Document → Bool) (now : Nat)
    (folderPath : Option String) (docs : List Document)
    (files0 : SyncedFiles) (prog0 : SyncProgress) : SyncResult :=
  let progA : SyncProgress := { prog0 with status := .syncing }
  let filesToSync := getFilesToSync hash files0 folderPath docs
  let progB : SyncProgress := { progA with total := filesToSync.length, processed := 0 }
  let skippedCount := (getVaultFiles folderPath docs).length - filesToSync.length
  if filesToSync.length = 0 then
    { summary := ⟨0, 0, skippedCount⟩
      files := files0
      progress := { progB with status := .completed }
      trace := [] }
  else
    let final := syncLoop hash upload now filesToSync ⟨progB, files0, 0, 0, []⟩
    let progEnd : SyncProgress := { final.prog with status := .completed, current := "" }
    { summary := ⟨final.successCount, final.failedCount, skippedCount⟩
      files := final.files
      progress := progEnd
      trace := final.trace ++ [progEnd] }

/-- The `{total, synced, pending}` record of `getSyncStats`. -/
structure SyncStats where
  total : Nat
  synced : Nat
  pending : Nat
  deriving Repr, DecidableEq

/-- `RAGService.getSyncStats`. -/
def getSyncStats (m : SyncedFiles) : SyncStats :=
  let syncedCount := (m.filter (fun p => p.2.uploaded)).length
  ⟨m.length, syncedCount, m.length - syncedCount⟩

/-! ### Basic lemmas about the map and the delta -/

theorem mapGet_mapSet (m : SyncedFiles) (k : String) (v : FileMetadata) (p : String) :
    mapGet (mapSet m k v) p = if p = k then some v else mapGet m p := by
  induction m with
  | nil =>
    by_cases h : p = k
    · subst h; simp [mapSet, mapGet]
    · have h2 : ¬ k = p := fun hk => h hk.symm
      simp [mapSet, mapGet, h, h2]
  | cons a t ih =>
    obtain ⟨ak, av⟩ := a
    by_cases hak : ak = k
    · subst hak
      by_cases h : p = ak
      · subst h; simp [mapSet, mapGet]
      · have h2 : ¬ ak = p := fun hk => h hk.symm
        simp [mapSet, mapGet, h, h2]
    · by_cases h : ak = p
      · subst h
        have h2 : ¬ ak = k := hak
        simp [mapSet, mapGet, hak, h2]
      · simp [mapSet, mapGet, hak, h, ih]

theorem length_filter_add_length_filter_not {α : Type} (l : List α) (p : α → Bool) :
    (l.filter p).length + (l.filter (fun a => !(p a))).length = l.length := by
  induction l with
  | nil => rfl
  | cons a t ih =>
    cases h : p a <;> simp [List.filter_cons, h] <;> omega

/-- C2: Delta selection correctness. `getFilesToSync` returns exactly the
in-scope documents having no sync record or a record whose stored
fingerprint differs from the hash of the current content; the selected and
the unchanged documents partition the in-scope corpus (so a corpus with
exactly K changed documents yields exactly K selections), and an empty
document set yields the empty list. -/
theorem getFilesToSync_delta_correct (hash : String → String) (m : SyncedFiles)
    (folderPath : Option String) (docs : List Document) :
    (∀ f, f ∈ getFilesToSync hash m folderPath docs ↔
        f ∈ getVaultFiles folderPath docs ∧
          (mapGet m f.path = none ∨
            ∃ md, mapGet m f.path = some md ∧ md.hash ≠ hash f.content)) ∧
    (getFilesToSync hash m folderPath docs).length +
        ((getVaultFiles folderPath docs).filter
          (fun f => match mapGet m f.path with
            | some md => md.hash = hash f.content
            | none => false)).length
      = (getVaultFiles folderPath docs).length ∧
    getFilesToSync hash m folderPath [] = [] := by
  refine ⟨?_, ?_, ?_⟩
  · intro f
    simp only [getFilesToSync, List.mem_filter, needsSync]
    constructor
    · rintro ⟨hin, hsel⟩
      refine ⟨hin, ?_⟩
      cases h : mapGet m f.path with
      | none => exact Or.inl rfl
      | some md =>
        rw [h] at hsel
        simp only [decide_eq_true_eq] at hsel
        exact Or.inr ⟨md, rfl, hsel⟩
    · rintro ⟨hin, hcond⟩
      refine ⟨hin, ?_⟩
      rcases hcond with h | ⟨md, hmd, hne⟩
      · rw [h]
      · rw [hmd]
        simpa using hne
  · rw [getFilesToSync]
    have h2 : ((getVaultFiles folderPath docs).filter
          (fun f => match mapGet m f.path with
            | some md => md.hash = hash f.content
            | none => false))
        = (getVaultFiles folderPath docs).filter (fun f => !(needsSync hash m f)) := by
      apply List.filter_congr
      intro f _
      rcases h : mapGet m f.path with _ | md <;> simp [needsSync, h]
    rw [h2]
    exact length_filter_add_length_filter_not _ _
  · cases folderPath with
    | none => rfl
    | some p =>
      by_cases h : p = "" ∨ p = "/" <;> simp [getFilesToSync, getVaultFiles, h]

/-! ### Lemmas about the upload loop -/

/-- Last document of a list with a given path (later uploads overwrite
earlier records for the same path). -/
def findLast : List Document → String → Option Document
  | [], _ => none
  | f :: rest, p =>
    match findLast rest p with
    | some g => some g
    | none => if f.path = p then some f else none

theorem findLast_eq_none {l : List Document} {p : String} :
    findLast l p = none ↔ ∀ g ∈ l, g.path ≠ p := by
  induction l with
  | nil => simp [findLast]
  | cons f rest ih =>
    simp only [findLast]
    cases h : findLast rest p with
    | some g =>
      simp only [List.mem_cons]
      constructor
      · intro hc; exact absurd hc (by simp)
      · intro hall
        exfalso
        have h0 : findLast rest p = none := ih.mpr (fun g hg => hall g (Or.inr hg))
        rw [h0] at h; exact Option.noConfusion h
    | none =>
      by_cases hp : f.path = p
      · simp only [hp, if_pos rfl, List.mem_cons]
        constructor
        · intro hc; exact absurd hc (by simp)
        · intro hall; exact absurd hp (hall f (Or.inl rfl))
      · simp only [if_neg hp, List.mem_cons]
        constructor
        · intro _ g hg
          rcases hg with rfl | hg'
          · exact hp
          · exact ih.mp h g hg'
        · intro _; trivial

theorem findLast_some {l : List Document} {p : String} {g : Document}
    (h : findLast l p = some g) : g ∈ l ∧ g.path = p := by
  induction l with
  | nil => simp [findLast] at h
  | cons f rest ih =>
    simp only [findLast] at h
    cases h2 : findLast rest p with
    | some g' =>
      rw [h2] at h
      obtain rfl : g' = g := by simpa using h
      obtain ⟨hm, hp⟩ := ih h2
      exact ⟨List.mem_cons_of_mem _ hm, hp⟩
    | none =>
      rw [h2] at h
      by_cases hp : f.path = p
      · rw [if_pos hp] at h
        obtain rfl : f = g := by simpa using h
        exact ⟨List.mem_cons_self _ _, hp⟩
      · rw [if_neg hp] at h; exact Option.noConfusion h

/-- What the loop leaves in the sync store at any path: the record of the
last successfully uploaded delta document with that path, else whatever was
there before. Failed uploads write nothing. -/
theorem syncLoop_files (hash : String → String) (upload : Document → Bool) (now : Nat)
    (l : List Document) (s : LoopState) (p : String) :
    mapGet (syncLoop hash upload now l s).files p =
      (findLast (l.filter upload) p).elim (mapGet s.files p)
        (fun g => some (newRecord hash now g)) := by
  induction l generalizing s with
  | nil => simp [syncLoop, findLast]
  | cons f rest ih =>
    cases hup : upload f with
    | true =>
      simp only [syncLoop]
      rw [show uploadFile hash upload now f s.files
            = (true, mapSet s.files f.path (newRecord hash now f)) from by
          simp [uploadFile, hup]]
      rw [ih]
      simp only [List.filter_cons, hup, if_true, findLast]
      cases hfl : findLast (List.filter upload rest) p with
      | some g => simp
      | none =>
        simp only [Option.elim_none, mapGet_mapSet]
        by_cases hp : f.path = p
        · subst hp
          simp
        · have hp' : ¬ p = f.path := fun h => hp h.symm
          simp [hp, hp']
    | false =>
      simp only [syncLoop]
      rw [show uploadFile hash upload now f s.files = (false, s.files) from by
        simp [uploadFile, hup]]
      rw [ih]
      simp [List.filter_cons, hup]

theorem syncLoop_counts (hash : String → String) (upload : Document → Bool) (now : Nat)
    (l : List Document) (s : LoopState) :
    (syncLoop hash upload now l s).successCount
        = s.successCount + (l.filter upload).length ∧
    (syncLoop hash upload now l s).failedCount
        = s.failedCount + (l.filter (fun f => !(upload f))).length := by
  induction l generalizing s with
  | nil => simp [syncLoop]
  | cons f rest ih =>
    cases hup : upload f with
    | true =>
      simp only [syncLoop]
      rw [show uploadFile hash upload now f s.files
            = (true, mapSet s.files f.path (newRecord hash now f)) from by
          simp [uploadFile, hup]]
      refine ⟨?_, ?_⟩
      · rw [(ih _).1]; simp [List.filter_cons, hup]; omega
      · rw [(ih _).2]; simp [List.filter_cons, hup]
    | false =>
      simp only [syncLoop]
      rw [show uploadFile hash upload now f s.files = (false, s.files) from by
        simp [uploadFile, hup]]
      refine ⟨?_, ?_⟩
      · rw [(ih _).1]; simp [List.filter_cons, hup]
      · rw [(ih _).2]; simp [List.filter_cons, hup]; omega

theorem syncLoop_prog (hash : String → String) (upload : Document → Bool) (now : Nat)
    (l : List Document) (s : LoopState) :
    (syncLoop hash upload now l s).prog.total = s.prog.total ∧
    (syncLoop hash upload now l s).prog.status = s.prog.status ∧
    (syncLoop hash upload now l s).prog.processed = s.prog.processed + l.length := by
  induction l generalizing s with
  | nil => simp [syncLoop]
  | cons f rest ih =>
    simp only [syncLoop]
    refine ⟨(ih _).1, (ih _).2.1, ?_⟩
    rw [(ih _).2.2]
    simp only [List.length_cons]
    omega

/-- If a document is in scope, it is a vault document. -/
theorem mem_of_mem_getVaultFiles {folderPath : Option String} {docs : List Document}
    {f : Document} (h : f ∈ getVaultFiles folderPath docs) : f ∈ docs := by
  cases folderPath with
  | none => exact h
  | some p =>
    simp only [getVaultFiles] at h
    by_cases hp : p = "" ∨ p = "/"
    · rwa [if_pos hp] at h
    · rw [if_neg hp] at h
      exact (List.mem_filter.mp h).1

/-- Distinct vault documents have distinct paths, so equal paths force equal
documents. -/
theorem eq_of_path_eq {docs : List Document}
    (hnodup : (docs.map (fun f => f.path)).Nodup)
    {a b : Document} (ha : a ∈ docs) (hb : b ∈ docs) (hp : a.path = b.path) : a = b := by
  exact List.inj_on_of_nodup_map hnodup ha hb hp

/-- `needsSync` only looks at the record stored under the document's path. -/
theorem needsSync_congr (hash : String → String) {m1 m2 : SyncedFiles} (f : Document)
    (h : mapGet m1 f.path = mapGet m2 f.path) :
    needsSync hash m1 f = needsSync hash m2 f := by
  simp [needsSync, h]

/-- The summary of a `syncVault` run, uniformly over both branches: the
successes are the delta documents whose upload succeeded, the failures the
rest of the delta, and `skipped` is the in-scope count minus the delta
count. -/
theorem syncVault_summary (hash : String → String) (upload : Document → Bool)
    (now : Nat) (folderPath : Option String) (docs : List Document)
    (files0 : SyncedFiles) (prog0 : SyncProgress) :
    (syncVault hash upload now folderPath docs files0 prog0).summary =
      ⟨((getFilesToSync hash files0 folderPath docs).filter upload).length,
       ((getFilesToSync hash files0 folderPath docs).filter (fun f => !(upload f))).length,
       (getVaultFiles folderPath docs).length
         - (getFilesToSync hash files0 folderPath docs).length⟩ := by
  simp only [syncVault]
  by_cases h0 : (getFilesToSync hash files0 folderPath docs).length = 0
  · have he : getFilesToSync hash files0 folderPath docs = [] := List.length_eq_zero.mp h0
    simp [h0, he]
  · rw [if_neg h0]
    have hc := syncLoop_counts hash upload now (getFilesToSync hash files0 folderPath docs)
      ⟨{ prog0 with
          status := SyncStatus.syncing,
          total := (getFilesToSync hash files0 folderPath docs).length,
          processed := 0 }, files0, 0, 0, []⟩
    rw [hc.1, hc.2]
    simp

/-- The keeper state after a `syncVault` run. -/
theorem syncVault_files (hash : String → String) (upload : Document → Bool)
    (now : Nat) (folderPath : Option String) (docs : List Document)
    (files0 : SyncedFiles) (prog0 : SyncProgress) (p : String) :
    mapGet (syncVault hash upload now folderPath docs files0 prog0).files p =
      (findLast ((getFilesToSync hash files0 folderPath docs).filter upload) p).elim
        (mapGet files0 p) (fun g => some (newRecord hash now g)) := by
  simp only [syncVault]
  by_cases h0 : (getFilesToSync hash files0 folderPath docs).length = 0
  · have he : getFilesToSync hash files0 folderPath docs = [] := List.length_eq_zero.mp h0
    simp [h0, he, findLast]
  · rw [if_neg h0]
    exact syncLoop_files hash upload now (getFilesToSync hash files0 folderPath docs)
      ⟨{ prog0 with
          status := SyncStatus.syncing,
          total := (getFilesToSync hash files0 folderPath docs).length,
          processed := 0 }, files0, 0, 0, []⟩ p

/-- Both branches of `syncVault` end with status `completed`. -/
theorem syncVault_status (hash : String → String) (upload : Document → Bool)
    (now : Nat) (folderPath : Option String) (docs : List Document)
    (files0 : SyncedFiles) (prog0 : SyncProgress) :
    (syncVault hash upload now folderPath docs files0 prog0).progress.status
      = SyncStatus.completed := by
  simp only [syncVault]
  by_cases h0 : (getFilesToSync hash files0 folderPath docs).length = 0
  · simp [h0]
  · simp [h0]

/-- After a run in which every delta upload succeeded, no in-scope document
needs syncing any more. -/
theorem syncVault_resync_empty (hash : String → String) (upload : Document → Bool)
    (now : Nat) (folderPath : Option String) (docs : List Document)
    (files0 : SyncedFiles) (prog0 : SyncProgress)
    (hnodup : (docs.map (fun f => f.path)).Nodup)
    (hup : ∀ f ∈ getFilesToSync hash files0 folderPath docs, upload f = true) :
    getFilesToSync hash (syncVault hash upload now folderPath docs files0 prog0).files
      folderPath docs = [] := by
  rw [getFilesToSync]
  apply List.filter_eq_nil_iff.mpr
  intro f hf
  have hmem : f ∈ docs := mem_of_mem_getVaultFiles hf
  have hget := syncVault_files hash upload now folderPath docs files0 prog0 f.path
  have hfilter : (getFilesToSync hash files0 folderPath docs).filter upload
      = getFilesToSync hash files0 folderPath docs := List.filter_eq_self.mpr hup
  rw [hfilter] at hget
  cases hfl : findLast (getFilesToSync hash files0 folderPath docs) f.path with
  | some g =>
    rw [hfl] at hget
    obtain ⟨hgmem, hgpath⟩ := findLast_some hfl
    have hgdocs : g ∈ docs :=
      mem_of_mem_getVaultFiles (List.mem_filter.mp hgmem).1
    have hgf : g = f := eq_of_path_eq hnodup hgdocs hmem hgpath
    subst hgf
    simp [needsSync, hget, newRecord]
  | none =>
    rw [hfl] at hget
    have hnone := findLast_eq_none.mp hfl
    have hnotdelta : f ∉ getFilesToSync hash files0 folderPath docs := by
      intro hin; exact hnone f hin rfl
    have hns : needsSync hash files0 f = false := by
      cases h : needsSync hash files0 f
      · rfl
      · exact absurd (List.mem_filter.mpr ⟨hf, h⟩) hnotdelta
    have hcongr := @needsSync_congr hash
      (syncVault hash upload now folderPath docs files0 prog0).files files0 f
      (by simpa using hget)
    simp [hcongr, hns]

/-- C10: Sync summary accounting identity. In every `syncVault` run (over the
fixed document snapshot of the embedding) the counts satisfy
`success + failed = |delta|` and `success + failed + skipped = |in-scope|`
(all counts are naturals, hence non-negative). -/
theorem syncVault_accounting (hash : String → String) (upload : Document → Bool)
    (now : Nat) (folderPath : Option String) (docs : List Document)
    (files0 : SyncedFiles) (prog0 : SyncProgress) :
    (syncVault hash upload now folderPath docs files0 prog0).summary.success
        + (syncVault hash upload now folderPath docs files0 prog0).summary.failed
      = (getFilesToSync hash files0 folderPath docs).length ∧
    (syncVault hash upload now folderPath docs files0 prog0).summary.success
        + (syncVault hash upload now folderPath docs files0 prog0).summary.failed
        + (syncVault hash upload now folderPath docs files0 prog0).summary.skipped
      = (getVaultFiles folderPath docs).length := by
  have hparts := length_filter_add_length_filter_not
    (getFilesToSync hash files0 folderPath docs) upload
  have hle : (getFilesToSync hash files0 folderPath docs).length
      ≤ (getVaultFiles folderPath docs).length := by
    simpa [getFilesToSync] using
      List.length_filter_le (needsSync hash files0) (getVaultFiles folderPath docs)
  rw [syncVault_summary hash upload now folderPath docs files0 prog0]
  dsimp only
  omega

/-- C1: Idempotent sync. If one `syncVault` run over a fixed document set
succeeds on every delta item, then a second run over the same documents
finds an empty delta and returns `{success: 0, failed: 0, skipped: total}`
with status `completed` (not `error`), regardless of the second run's upload
oracle. The `hnodup` hypothesis states that vault paths are unique, which
the document store guarantees. -/
theorem syncVault_idempotent (hash : String → String) (upload upload2 : Document → Bool)
    (now now2 : Nat) (folderPath : Option String) (docs : List Document)
    (files0 : SyncedFiles) (prog0 prog1 : SyncProgress)
    (hnodup : (docs.map (fun f => f.path)).Nodup)
    (hup : ∀ f ∈ getFilesToSync hash files0 folderPath docs, upload f = true) :
    getFilesToSync hash (syncVault hash upload now folderPath docs files0 prog0).files
        folderPath docs = [] ∧
    (syncVault hash upload2 now2 folderPath docs
        (syncVault hash upload now folderPath docs files0 prog0).files prog1).summary
      = ⟨0, 0, (getVaultFiles folderPath docs).length⟩ ∧
    (syncVault hash upload2 now2 folderPath docs
        (syncVault hash upload now folderPath docs files0 prog0).files prog1).progress.status
      = SyncStatus.completed := by
  have hempty := syncVault_resync_empty hash upload now folderPath docs files0 prog0 hnodup hup
  refine ⟨hempty, ?_, syncVault_status _ _ _ _ _ _ _⟩
  have hs := syncVault_summary hash upload2 now2 folderPath docs
    (syncVault hash upload now folderPath docs files0 prog0).files prog1
  rw [hempty] at hs
  simpa using hs

/-- Witness for C1 at a concrete input: one fresh document, an upload oracle
that always succeeds, identity hash. -/
theorem syncVault_idempotent_witness :
    (([⟨"a.md", "a.md", "hello", 1⟩] : List Document).map (fun f => f.path)).Nodup ∧
    getFilesToSync (fun s => s)
        (syncVault (fun s => s) (fun _ => true) 5 none [⟨"a.md", "a.md", "hello", 1⟩] [] ⟨0, 0, "", .idle⟩).files
        none [⟨"a.md", "a.md", "hello", 1⟩] = [] := by
  have h := syncVault_idempotent (fun s => s) (fun _ => true) (fun _ => true) 5 6
    none [⟨"a.md", "a.md", "hello", 1⟩] [] ⟨0, 0, "", .idle⟩ ⟨0, 0, "", .idle⟩
    (by decide) (by intro f _; rfl)
  exact ⟨by decide, h.1⟩

/-- C3: Partial-failure resilience. A failing upload for delta document `d`
is counted in `failed`, leaves `d`'s stored record exactly as before the
run (so `d` is selected again by the next delta computation), and does not
stop the batch: every delta document is still processed, successes and
failures partitioning the delta, and every successful document's record is
written. -/
theorem syncVault_partial_failure (hash : String → String) (upload : Document → Bool)
    (now : Nat) (folderPath : Option String) (docs : List Document)
    (files0 : SyncedFiles) (prog0 : SyncProgress) (d : Document)
    (hnodup : (docs.map (fun f => f.path)).Nodup)
    (hd : d ∈ getFilesToSync hash files0 folderPath docs)
    (hfail : upload d = false) :
    (syncVault hash upload now folderPath docs files0 prog0).summary.success
        = ((getFilesToSync hash files0 folderPath docs).filter upload).length ∧
    (syncVault hash upload now folderPath docs files0 prog0).summary.failed
        = ((getFilesToSync hash files0 folderPath docs).filter (fun f => !(upload f))).length ∧
    0 < (syncVault hash upload now folderPath docs files0 prog0).summary.failed ∧
    mapGet (syncVault hash upload now folderPath docs files0 prog0).files d.path
        = mapGet files0 d.path ∧
    (∀ g ∈ getFilesToSync hash files0 folderPath docs, upload g = true →
        mapGet (syncVault hash upload now folderPath docs files0 prog0).files g.path
          = some (newRecord hash now g)) ∧
    d ∈ getFilesToSync hash (syncVault hash upload now folderPath docs files0 prog0).files
          folderPath docs := by
  have hs := syncVault_summary hash upload now folderPath docs files0 prog0
  have hddocs : d ∈ docs := mem_of_mem_getVaultFiles (List.mem_filter.mp hd).1
  have hdfail : d ∈ (getFilesToSync hash files0 folderPath docs).filter
      (fun f => !(upload f)) := List.mem_filter.mpr ⟨hd, by simp [hfail]⟩
  have hunchanged :
      mapGet (syncVault hash upload now folderPath docs files0 prog0).files d.path
        = mapGet files0 d.path := by
    have hget := syncVault_files hash upload now folderPath docs files0 prog0 d.path
    have hnone : findLast ((getFilesToSync hash files0 folderPath docs).filter upload)
        d.path = none := by
      apply findLast_eq_none.mpr
      intro g hg hpath
      have hgdelta := (List.mem_filter.mp hg).1
      have hgup := (List.mem_filter.mp hg).2
      have hgdocs : g ∈ docs := mem_of_mem_getVaultFiles (List.mem_filter.mp hgdelta).1
      have : g = d := eq_of_path_eq hnodup hgdocs hddocs hpath
      subst this
      rw [hfail] at hgup
      exact Bool.noConfusion hgup
    rw [hget, hnone]
    rfl
  refine ⟨by rw [hs], by rw [hs], ?_, hunchanged, ?_, ?_⟩
  · rw [hs]
    exact List.length_pos_of_mem hdfail
  · intro g hg hgup
    have hget := syncVault_files hash upload now folderPath docs files0 prog0 g.path
    have hgfilter : g ∈ (getFilesToSync hash files0 folderPath docs).filter upload :=
      List.mem_filter.mpr ⟨hg, hgup⟩
    cases hfl : findLast ((getFilesToSync hash files0 folderPath docs).filter upload)
        g.path with
    | none =>
      exact absurd rfl (findLast_eq_none.mp hfl g hgfilter)
    | some g' =>
      rw [hfl] at hget
      obtain ⟨hg'mem, hg'path⟩ := findLast_some hfl
      have hg'docs : g' ∈ docs := mem_of_mem_getVaultFiles
        (List.mem_filter.mp (List.mem_filter.mp hg'mem).1).1
      have hgdocs : g ∈ docs := mem_of_mem_getVaultFiles (List.mem_filter.mp hg).1
      have : g' = g := eq_of_path_eq hnodup hg'docs hgdocs hg'path
      subst this
      exact hget
  · have hns : needsSync hash files0 d = true := (List.mem_filter.mp hd).2
    have hcongr := @needsSync_congr hash
      (syncVault hash upload now folderPath docs files0 prog0).files files0 d
      hunchanged
    exact List.mem_filter.mpr ⟨(List.mem_filter.mp hd).1, by rw [hcongr]; exact hns⟩

/-- Witness for C3 at a concrete input: two fresh documents, the first
upload fails, the second succeeds. -/
theorem syncVault_partial_failure_witness :
    (syncVault (fun s => s) (fun f => f.path ≠ "a.md") 7 none
        [⟨"a.md", "a.md", "x", 1⟩, ⟨"b.md", "b.md", "y", 2⟩] [] ⟨0, 0, "", .idle⟩).summary.failed
      = 1 ∧
    (⟨"a.md", "a.md", "x", 1⟩ : Document) ∈
      getFilesToSync (fun s => s)
        (syncVault (fun s => s) (fun f => f.path ≠ "a.md") 7 none
          [⟨"a.md", "a.md", "x", 1⟩, ⟨"b.md", "b.md", "y", 2⟩] [] ⟨0, 0, "", .idle⟩).files
        none [⟨"a.md", "a.md", "x", 1⟩, ⟨"b.md", "b.md", "y", 2⟩] := by
  have h := syncVault_partial_failure (fun s => s) (fun f => f.path ≠ "a.md") 7 none
    [⟨"a.md", "a.md", "x", 1⟩, ⟨"b.md", "b.md", "y", 2⟩] [] ⟨0, 0, "", .idle⟩
    ⟨"a.md", "a.md", "x", 1⟩ (by decide) (by decide) (by decide)
  refine ⟨?_, h.2.2.2.2.2⟩
  rw [h.2.1]
  decide

/-! ### Store lifecycle and query routing

`RAGService` keeps `fileSearchStoreName : string | null` (the active
IndexHandle) next to `syncedFiles`. The remote File Search API calls are
external collaborators, passed in as `Except`-valued oracles. -/

/-- The store-related state of a `RAGService` instance. -/
structure RAGState where
  fileSearchStoreName : Option String
  syncedFiles : SyncedFiles
  deriving Repr, DecidableEq

/-- `RAGService.initializeStore`: return the active handle unchanged if one
exists, otherwise create a remote store (oracle `create`, which returns the
remote store's `name` or fails) and record it. The `Nat` component counts
the remote create calls issued. Creation failure is rethrown with the
`Failed to initialize RAG store` prefix. -/
def initializeStore (create : String → Except String String) (storeName : String)
    (st : RAGState) : Except String (String × RAGState × Nat) :=
  match st.fileSearchStoreName with
  | some name => .ok (name, st, 0)
  | none =>
    match create storeName with
    | .ok newName => .ok (newName, { st with fileSearchStoreName := some newName }, 1)
    | .error e => .error ("Failed to initialize RAG store: " ++ e)

/-- `RAGService.deleteStore`: forward to the remote forced delete (oracle
`remoteDelete`); on success, if the deleted store is the active one, null
the handle and clear `syncedFiles`; on remote failure rethrow with the
`Failed to delete store` prefix. -/
def deleteStore (remoteDelete : String → Except String Unit) (storeName : String)
    (st : RAGState) : Except String RAGState :=
  match remoteDelete storeName with
  | .error e => .error ("Failed to delete store: " ++ e)
  | .ok _ =>
    if st.fileSearchStoreName = some storeName then
      .ok { fileSearchStoreName := none, syncedFiles := [] }
    else
      .ok st

/-- `RAGService.setFileSearchStoreName`: a plain setter; it does not touch
`syncedFiles`. -/
def setFileSearchStoreName (name : String) (st : RAGState) : RAGState :=
  { st with fileSearchStoreName := some name }

/-- `RAGService.queryWithRAG`: with no active handle, throw the
"not synced" error (rethrown by the catch-all with the `RAG query failed`
prefix); with a handle, forward to the retrieval backend (oracle
`generate`, returning the response text, or failing). -/
def queryWithRAG (generate : String → Except String String) (query : String)
    (st : RAGState) : Except String String :=
  match st.fileSearchStoreName with
  | none => .error
      "RAG query failed: No File Search store initialized. Please sync your vault first."
  | some _ =>
    match generate query with
    | .ok text => .ok text
    | .error e => .error ("RAG query failed: " ++ e)

/-- Where `handleMessage` (main.ts) sends a user message. -/
inductive MessageRoute where
  | rag
  | ragNotSyncedError
  | plain
  deriving Repr, DecidableEq

/-- The RAG routing of `handleMessage` (main.ts 2489-2508): RAG mode with a
service holding an active store name goes to `queryWithRAG`; RAG mode
without one produces the "vault hasn't been synced yet" error message and
returns; otherwise the plain conversational backend is used. -/
def routeMessage (ragMode : Bool) (hasRagService : Bool)
    (storeName : Option String) : MessageRoute :=
  if ragMode && hasRagService && storeName.isSome then
    .rag
  else if ragMode && (!hasRagService || storeName.isNone) then
    .ragNotSyncedError
  else
    .plain

/-- C9: `initializeStore` idempotence. With an active handle it returns that
handle with the state unchanged and zero remote create calls — for every
create oracle, so no remote call can influence the result. With no handle
and a successful create it issues exactly one create, records the returned
name, and a repeated call then returns that same name with zero further
creates: repeated invocations create at most one remote index. -/
theorem initializeStore_idempotent (create create2 : String → Except String String)
    (n1 n2 : String) (st : RAGState) :
    (∀ h, st.fileSearchStoreName = some h →
        initializeStore create n1 st = .ok (h, st, 0)) ∧
    (st.fileSearchStoreName = none → ∀ newName, create n1 = .ok newName →
        initializeStore create n1 st
            = .ok (newName, { st with fileSearchStoreName := some newName }, 1) ∧
        initializeStore create2 n2 { st with fileSearchStoreName := some newName }
            = .ok (newName, { st with fileSearchStoreName := some newName }, 0)) := by
  constructor
  · intro h hh
    simp [initializeStore, hh]
  · intro hnone newName hcreate
    refine ⟨?_, ?_⟩
    · simp [initializeStore, hnone, hcreate]
    · simp [initializeStore]

/-- Witness for C9 at concrete inputs. -/
theorem initializeStore_idempotent_witness :
    initializeStore (fun _ => .ok "stores/s1") "VaultAI-FileSearchStore"
        ⟨none, []⟩ = .ok ("stores/s1", ⟨some "stores/s1", []⟩, 1) ∧
    initializeStore (fun _ => .error "boom") "VaultAI-FileSearchStore"
        ⟨some "stores/s1", []⟩ = .ok ("stores/s1", ⟨some "stores/s1", []⟩, 0) := by
  have h := initializeStore_idempotent (fun _ => .ok "stores/s1")
    (fun _ => .error "boom") "VaultAI-FileSearchStore" "VaultAI-FileSearchStore"
    ⟨none, []⟩
  have h2 := (h.2 rfl "stores/s1" rfl)
  exact ⟨h2.1, h2.2⟩

/-- C4: Retrieval requires a handle. With no active store name,
`queryWithRAG` fails with the distinct "not synced" error — the same result
for every retrieval backend, so no backend call (and no silent plain-mode
answer) can occur — and the chat handler routes a RAG-mode message to the
"not synced" error path, never to the plain conversational backend. -/
theorem retrieval_requires_handle (st : RAGState)
    (hnone : st.fileSearchStoreName = none) :
    (∀ generate query, queryWithRAG generate query st =
        .error
          "RAG query failed: No File Search store initialized. Please sync your vault first.") ∧
    (∀ hasService : Bool, routeMessage true hasService none = .ragNotSyncedError) ∧
    (∀ (hasService : Bool) (storeName : Option String),
        routeMessage true hasService storeName ≠ .plain) := by
  refine ⟨?_, ?_, ?_⟩
  · intro generate query
    simp [queryWithRAG, hnone]
  · intro hasService
    cases hasService <;> rfl
  · intro hasService storeName
    cases hasService <;> cases storeName <;> simp [routeMessage]

/-- Witness for C4 at a concrete input. -/
theorem retrieval_requires_handle_witness :
    queryWithRAG (fun _ => .ok "an answer") "what is in my vault?" ⟨none, []⟩ =
      .error
        "RAG query failed: No File Search store initialized. Please sync your vault first." ∧
    routeMessage true true none = .ragNotSyncedError := by
  have h := retrieval_requires_handle ⟨none, []⟩ rfl
  exact ⟨h.1 (fun _ => .ok "an answer") "what is in my vault?", h.2.1 true⟩

/-- Counterexample for C6 as stated: switching the active handle with
`setFileSearchStoreName` (the only handle-switching operation, cited by the
claim) does not clear the sync records — after the switch a record with
`uploaded = true`, written under the old store, is still present. -/
theorem setFileSearchStoreName_keeps_records :
    (setFileSearchStoreName "stores/B"
        ⟨some "stores/A", [("note.md", ⟨"note.md", "h1", 0, true, some 0⟩)]⟩).fileSearchStoreName
      = some "stores/B" ∧
    (setFileSearchStoreName "stores/B"
        ⟨some "stores/A", [("note.md", ⟨"note.md", "h1", 0, true, some 0⟩)]⟩).syncedFiles
      = [("note.md", ⟨"note.md", "h1", 0, true, some 0⟩)] ∧
    (getSyncStats (setFileSearchStoreName "stores/B"
        ⟨some "stores/A", [("note.md", ⟨"note.md", "h1", 0, true, some 0⟩)]⟩).syncedFiles).synced
      = 1 := by
  refine ⟨rfl, rfl, rfl⟩

/-- C6 (amended): deleting the *active* store clears the handle and all sync
records together, and `getSyncStats` on the resulting state returns
`{total: 0, synced: 0, pending: 0}`; deleting a non-active store leaves the
state unchanged. (The raw setter `setFileSearchStoreName`, used to restore
persisted state, switches the handle without clearing records — see the
counterexample.) -/
theorem deleteStore_clears_state (remoteDelete : String → Except String Unit)
    (name : String) (st : RAGState)
    (hok : remoteDelete name = .ok ()) :
    (st.fileSearchStoreName = some name →
      deleteStore remoteDelete name st = .ok ⟨none, []⟩ ∧
      ∃ st', deleteStore remoteDelete name st = .ok st' ∧
        getSyncStats st'.syncedFiles = ⟨0, 0, 0⟩) ∧
    (st.fileSearchStoreName ≠ some name →
      deleteStore remoteDelete name st = .ok st) := by
  constructor
  · intro hactive
    have hd : deleteStore remoteDelete name st = .ok ⟨none, []⟩ := by
      simp [deleteStore, hok, hactive]
    exact ⟨hd, ⟨none, []⟩, hd, rfl⟩
  · intro hnot
    simp [deleteStore, hok, hnot]

/-- Witness for C6's amended theorem at a concrete input. -/
theorem deleteStore_clears_state_witness :
    deleteStore (fun _ => .ok ()) "stores/A"
        ⟨some "stores/A", [("note.md", ⟨"note.md", "h1", 0, true, some 0⟩)]⟩
      = .ok ⟨none, []⟩ := by
  exact ((deleteStore_clears_state (fun _ => .ok ()) "stores/A"
    ⟨some "stores/A", [("note.md", ⟨"note.md", "h1", 0, true, some 0⟩)]⟩ rfl).1 rfl).1

/-! ### The progress callback trace -/

/-- The sequence of `SyncProgress` values the loop hands to the callback
(one per delta item, captured before the item's upload), as a function of
the progress value entering the loop. -/
def traceOf : List Document → SyncProgress → List SyncProgress
  | [], _ => []
  | f :: rest, pr =>
    { pr with current := f.name } ::
      traceOf rest { pr with current := f.name, processed := pr.processed + 1 }

theorem traceOf_length (l : List Document) (pr : SyncProgress) :
    (traceOf l pr).length = l.length := by
  induction l generalizing pr with
  | nil => rfl
  | cons f rest ih => simp [traceOf, ih]

theorem traceOf_getD (l : List Document) (pr : SyncProgress) (i : Nat) (hi : i < l.length)
    (d : SyncProgress) (dd : Document) :
    (traceOf l pr).getD i d =
      ⟨pr.total, pr.processed + i, (l.getD i dd).name, pr.status⟩ := by
  induction l generalizing pr i with
  | nil => simp at hi
  | cons f rest ih =>
    cases i with
    | zero =>
      cases pr
      simp [traceOf]
    | succ m =>
      simp only [traceOf, List.getD_cons_succ]
      rw [ih _ _ (by simpa using hi)]
      have harith : pr.processed + 1 + m = pr.processed + (m + 1) := by omega
      simp [harith]

theorem syncLoop_trace (hash : String → String) (upload : Document → Bool) (now : Nat)
    (l : List Document) (s : LoopState) :
    (syncLoop hash upload now l s).trace = s.trace ++ traceOf l s.prog := by
  induction l generalizing s with
  | nil => simp [syncLoop, traceOf]
  | cons f rest ih =>
    cases hup : upload f with
    | true =>
      simp only [syncLoop]
      rw [show uploadFile hash upload now f s.files
            = (true, mapSet s.files f.path (newRecord hash now f)) from by
          simp [uploadFile, hup]]
      rw [ih]
      simp [traceOf]
    | false =>
      simp only [syncLoop]
      rw [show uploadFile hash upload now f s.files = (false, s.files) from by
        simp [uploadFile, hup]]
      rw [ih]
      simp [traceOf]

/-- With a non-empty delta, the callback trace of `syncVault` is the loop
trace followed by the final completed snapshot, and the final progress value
is `{total: n, processed: n, current: "", status: completed}`. -/
theorem syncVault_trace_eq (hash : String → String) (upload : Document → Bool)
    (now : Nat) (folderPath : Option String) (docs : List Document)
    (files0 : SyncedFiles) (prog0 : SyncProgress)
    (hne : getFilesToSync hash files0 folderPath docs ≠ []) :
    (syncVault hash upload now folderPath docs files0 prog0).trace
      = traceOf (getFilesToSync hash files0 folderPath docs)
          ⟨(getFilesToSync hash files0 folderPath docs).length, 0, prog0.current,
            SyncStatus.syncing⟩
        ++ [⟨(getFilesToSync hash files0 folderPath docs).length,
             (getFilesToSync hash files0 folderPath docs).length, "",
             SyncStatus.completed⟩] ∧
    (syncVault hash upload now folderPath docs files0 prog0).progress
      = ⟨(getFilesToSync hash files0 folderPath docs).length,
         (getFilesToSync hash files0 folderPath docs).length, "",
         SyncStatus.completed⟩ := by
  have h0 : ¬ (getFilesToSync hash files0 folderPath docs).length = 0 := by
    intro h; exact hne (List.length_eq_zero.mp h)
  simp only [syncVault]
  rw [if_neg h0]
  have hp := syncLoop_prog hash upload now (getFilesToSync hash files0 folderPath docs)
    ⟨{ prog0 with
        status := SyncStatus.syncing,
        total := (getFilesToSync hash files0 folderPath docs).length,
        processed := 0 }, files0, 0, 0, []⟩
  constructor
  · rw [syncLoop_trace, hp.1, hp.2.2]
    simp
  · rw [hp.1, hp.2.2]
    simp

/-- C8: Progress monotonicity and callback ordering. For a non-empty delta
of size `n`, the callback observes exactly `n + 1` progress values: the
`i`-th (for `i < n`) is taken before item `i`'s upload and reads
`{total: n, processed: i, current: item i's name, status: syncing}` — so
`processed` grows by one per item regardless of the upload outcome — and
the last one is `{total: n, processed: n, current: "", status: completed}`,
which is also the final progress state. Along the trace, `processed` is
non-decreasing and equals `total` exactly at the final (completion)
entry. -/
theorem syncProgress_monotone_ordered (hash : String → String)
    (upload : Document → Bool) (now : Nat) (folderPath : Option String)
    (docs : List Document) (files0 : SyncedFiles) (prog0 : SyncProgress)
    (delta : List Document) (n : Nat)
    (hdelta : delta = getFilesToSync hash files0 folderPath docs)
    (hn : n = delta.length)
    (hne : delta ≠ []) :
    (syncVault hash upload now folderPath docs files0 prog0).trace.length = n + 1 ∧
    (∀ i, i < n →
      (syncVault hash upload now folderPath docs files0 prog0).trace.getD i
          ⟨0, 0, "", SyncStatus.idle⟩
        = ⟨n, i, (delta.getD i ⟨"", "", "", 0⟩).name, SyncStatus.syncing⟩) ∧
    (syncVault hash upload now folderPath docs files0 prog0).trace.getD n
        ⟨0, 0, "", SyncStatus.idle⟩
      = ⟨n, n, "", SyncStatus.completed⟩ ∧
    (syncVault hash upload now folderPath docs files0 prog0).progress
      = ⟨n, n, "", SyncStatus.completed⟩ ∧
    (∀ i j, i ≤ j → j ≤ n →
      ((syncVault hash upload now folderPath docs files0 prog0).trace.getD i
          ⟨0, 0, "", SyncStatus.idle⟩).processed
        ≤ ((syncVault hash upload now folderPath docs files0 prog0).trace.getD j
            ⟨0, 0, "", SyncStatus.idle⟩).processed) ∧
    (∀ i, i ≤ n →
      (((syncVault hash upload now folderPath docs files0 prog0).trace.getD i
            ⟨0, 0, "", SyncStatus.idle⟩).processed
          = ((syncVault hash upload now folderPath docs files0 prog0).trace.getD i
              ⟨0, 0, "", SyncStatus.idle⟩).total
        ↔ i = n)) := by
  subst hdelta
  subst hn
  obtain ⟨htr, hprog⟩ := syncVault_trace_eq hash upload now folderPath docs files0 prog0 hne
  have hlenA : (traceOf (getFilesToSync hash files0 folderPath docs)
      ⟨(getFilesToSync hash files0 folderPath docs).length, 0, prog0.current,
        SyncStatus.syncing⟩).length
      = (getFilesToSync hash files0 folderPath docs).length := traceOf_length _ _
  have hlen : (syncVault hash upload now folderPath docs files0 prog0).trace.length
      = (getFilesToSync hash files0 folderPath docs).length + 1 := by
    rw [htr]
    simp [hlenA]
  have hentry : ∀ i, i < (getFilesToSync hash files0 folderPath docs).length →
      (syncVault hash upload now folderPath docs files0 prog0).trace.getD i
          ⟨0, 0, "", SyncStatus.idle⟩
        = ⟨(getFilesToSync hash files0 folderPath docs).length, i,
           ((getFilesToSync hash files0 folderPath docs).getD i ⟨"", "", "", 0⟩).name,
           SyncStatus.syncing⟩ := by
    intro i hi
    rw [htr, List.getD_append _ _ _ _ (by rw [hlenA]; exact hi)]
    rw [traceOf_getD (getFilesToSync hash files0 folderPath docs) _ i hi
      ⟨0, 0, "", SyncStatus.idle⟩ ⟨"", "", "", 0⟩]
    simp
  have hlast : (syncVault hash upload now folderPath docs files0 prog0).trace.getD
      (getFilesToSync hash files0 folderPath docs).length ⟨0, 0, "", SyncStatus.idle⟩
      = ⟨(getFilesToSync hash files0 folderPath docs).length,
         (getFilesToSync hash files0 folderPath docs).length, "",
         SyncStatus.completed⟩ := by
    rw [htr, List.getD_append_right _ _ _ _ (by rw [hlenA])]
    rw [hlenA]
    simp
  have hproc : ∀ i, i ≤ (getFilesToSync hash files0 folderPath docs).length →
      ((syncVault hash upload now folderPath docs files0 prog0).trace.getD i
          ⟨0, 0, "", SyncStatus.idle⟩).processed = i ∧
      ((syncVault hash upload now folderPath docs files0 prog0).trace.getD i
          ⟨0, 0, "", SyncStatus.idle⟩).total
        = (getFilesToSync hash files0 folderPath docs).length := by
    intro i hi
    rcases Nat.lt_or_ge i (getFilesToSync hash files0 folderPath docs).length with h | h
    · rw [hentry i h]
      exact ⟨rfl, rfl⟩
    · have : i = (getFilesToSync hash files0 folderPath docs).length := by omega
      subst this
      rw [hlast]
      exact ⟨rfl, rfl⟩
  refine ⟨hlen, hentry, hlast, hprog, ?_, ?_⟩
  · intro i j hij hj
    rw [(hproc i (by omega)).1, (hproc j hj).1]
    exact hij
  · intro i hi
    rw [(hproc i hi).1, (hproc i hi).2]

/-- Witness for C8 at a concrete input: a two-document delta. -/
theorem syncProgress_monotone_ordered_witness :
    (syncVault (fun s => s) (fun _ => true) 3 none
        [⟨"a.md", "a.md", "x", 1⟩, ⟨"b.md", "b.md", "y", 2⟩] [] ⟨0, 0, "", .idle⟩).trace.length
      = 3 ∧
    (syncVault (fun s => s) (fun _ => true) 3 none
        [⟨"a.md", "a.md", "x", 1⟩, ⟨"b.md", "b.md", "y", 2⟩] [] ⟨0, 0, "", .idle⟩).trace.getD 0
        ⟨0, 0, "", SyncStatus.idle⟩
      = ⟨2, 0, "a.md", SyncStatus.syncing⟩ ∧
    (syncVault (fun s => s) (fun _ => true) 3 none
        [⟨"a.md", "a.md", "x", 1⟩, ⟨"b.md", "b.md", "y", 2⟩] [] ⟨0, 0, "", .idle⟩).trace.getD 2
        ⟨0, 0, "", SyncStatus.idle⟩
      = ⟨2, 2, "", SyncStatus.completed⟩ := by
  have h := syncProgress_monotone_ordered (fun s => s) (fun _ => true) 3 none
    [⟨"a.md", "a.md", "x", 1⟩, ⟨"b.md", "b.md", "y", 2⟩] [] ⟨0, 0, "", .idle⟩
    [⟨"a.md", "a.md", "x", 1⟩, ⟨"b.md", "b.md", "y", 2⟩] 2 (by decide) (by decide)
    (by decide)
  refine ⟨h.1, ?_, h.2.2.1⟩
  have h0 := h.2.1 0 (by decide)
  simpa using h0

/-! ### Citation extraction (`GeminiChatbotPlugin.formatCitations`, main.ts)

`groundingMetadata` arrives as an untyped (`any`) JavaScript value, so the
embedding works over a JSON-like value type with JavaScript semantics:
truthiness, property access (throwing on `null`/`undefined`, which the model
merges into `.null`), optional chaining, `||`, `Set` de-duplication under
SameValueZero (object values coming from distinct chunks are distinct
references, hence never equal), and regex scans for `[[...]]` wiki-links and
`#word` hashtags. Steps that can throw a `TypeError` return `Except.error`. -/

/-- A JavaScript value. `null` also stands for `undefined` (both are falsy
and both make property access throw, which is all the extractor code
distinguishes). -/
inductive JValue where
  | null
  | bool (b : Bool)
  | num (n : Int)
  | str (s : String)
  | arr (elems : List JValue)
  | obj (fields : List (String × JValue))
  deriving Repr

/-- JavaScript truthiness. -/
def truthy : JValue → Bool
  | .null => false
  | .bool b => b
  | .num n => n != 0
  | .str s => s != ""
  | .arr _ => true
  | .obj _ => true

/-- Property access `v.k` on a non-null value: object field lookup, `length`
on strings/arrays, `undefined` (modelled `.null`) otherwise. -/
def getProp : JValue → String → JValue
  | .obj fields, k =>
    match fields.find? (fun p => p.1 = k) with
    | some p => p.2
    | none => .null
  | .str s, k => if k = "length" then .num s.length else .null
  | .arr l, k => if k = "length" then .num l.length else .null
  | _, _ => .null

/-- Optional chaining `v?.k`. -/
def optChain (v : JValue) (k : String) : JValue :=
  match v with
  | .null => .null
  | w => getProp w k

/-- `Set.add` equality (SameValueZero) restricted to our values: primitive
values compare by value; objects and arrays parsed from distinct chunks are
distinct references and never compare equal. -/
def sameValueZero : JValue → JValue → Bool
  | .null, .null => true
  | .bool a, .bool b => a == b
  | .num a, .num b => a == b
  | .str a, .str b => a == b
  | _, _ => false

/-- Insertion-ordered `Set<JValue>.add`. -/
def addJSet (l : List JValue) (v : JValue) : List JValue :=
  if l.any (fun w => sameValueZero w v) then l else l ++ [v]

/-- Insertion-ordered `Set<string>.add`. -/
def addSSet (l : List String) (s : String) : List String :=
  if l.contains s then l else l ++ [s]

/-- The element predicate of
`customMetadata?.find?.((m) => m.key === "path")`: property access on a
null element throws; `===` against the string only holds for equal
strings. -/
def findPathMeta : List JValue → Except String JValue
  | [] => .ok .null
  | m :: rest =>
    match m with
    | .null => .error "TypeError: Cannot read properties of null (reading key)"
    | _ =>
      if (match getProp m "key" with | .str s => s == "path" | _ => false) then
        .ok m
      else
        findPathMeta rest

/-- The `||` chain that probes the candidate file-name locations
(`displayName`, `title`, `name`, `uri`, `metadata.displayName`,
`metadata.path`, `customMetadata.find(key === "path").stringValue`), with
JavaScript short-circuiting: the first truthy value wins, and otherwise the
value of the last expression (falsy) is returned. Calling `find` on a
non-array with a non-null `find` member throws. -/
def fileNameChain (context : JValue) : Except String JValue :=
  let v1 := optChain context "displayName"
  if truthy v1 then .ok v1 else
  let v2 := optChain context "title"
  if truthy v2 then .ok v2 else
  let v3 := optChain context "name"
  if truthy v3 then .ok v3 else
  let v4 := optChain context "uri"
  if truthy v4 then .ok v4 else
  let meta := optChain context "metadata"
  let v5 := optChain meta "displayName"
  if truthy v5 then .ok v5 else
  let v6 := optChain meta "path"
  if truthy v6 then .ok v6 else
  match optChain context "customMetadata" with
  | .null => .ok .null
  | .arr l =>
    match findPathMeta l with
    | .error e => .error e
    | .ok found => .ok (optChain found "stringValue")
  | other =>
    match getProp other "find" with
    | .null => .ok .null
    | _ => .error "TypeError: context.customMetadata.find is not a function"

/-- Word characters of the hashtag regex `/#[\w-]+/g`. -/
def isWordChar (c : Char) : Bool :=
  ('a' ≤ c && c ≤ 'z') || ('A' ≤ c && c ≤ 'Z') || ('0' ≤ c && c ≤ '9') || c = '_' || c = '-'

/-- Scan for `/\[\[([^\]]+)\]\]/g` matches (capture groups), advancing one
character on a failed position and past the match on success, like a global
regex. Structural fuel (one unit per inspected position) keeps the
definition kernel-reducible; `scanWiki` supplies `length` fuel, which
suffices because every step drops at least one character. -/
def scanWikiAux : Nat → List Char → List String
  | 0, _ => []
  | _ + 1, [] => []
  | _ + 1, [_] => []
  | fuel + 1, c1 :: c2 :: rest =>
    if c1 = '[' && c2 = '[' then
      let inner := rest.takeWhile (fun c => c ≠ ']')
      if inner.isEmpty then
        scanWikiAux fuel (c2 :: rest)
      else if (rest.drop inner.length).take 2 = [']', ']'] then
        String.mk inner :: scanWikiAux fuel (rest.drop (inner.length + 2))
      else
        scanWikiAux fuel (c2 :: rest)
    else
      scanWikiAux fuel (c2 :: rest)

/-- All `[[...]]` captures in a string. -/
def scanWiki (s : String) : List String :=
  scanWikiAux s.data.length s.data

/-- Scan for `/#[\w-]+/g` matches (whole matches, `#` included). -/
def scanTagsAux : Nat → List Char → List String
  | 0, _ => []
  | _ + 1, [] => []
  | fuel + 1, c :: rest =>
    if c = '#' then
      let run := rest.takeWhile isWordChar
      if run.isEmpty then
        scanTagsAux fuel rest
      else
        String.mk ('#' :: run) :: scanTagsAux fuel (rest.drop run.length)
    else
      scanTagsAux fuel rest

/-- All `#word` matches in a string. -/
def scanTags (s : String) : List String :=
  scanTagsAux s.data.length s.data

/-- Whitespace recognised by `String.prototype.trim` (ASCII part; the
untrimmed Unicode spaces make no difference to any claim). -/
def isJsSpace (c : Char) : Bool :=
  c = ' ' || c = '\t' || c = '\n' || c = '\r' || c = '\x0b' || c = '\x0c'

/-- `text.trim().substring(0, 80).replace(/\n/g, ' ')`, over the character
list (the pattern is the single character `\n`, so the global replace is a
character map). -/
def jsPreview (text : String) : String :=
  String.mk
    ((((text.data.dropWhile isJsSpace).reverse.dropWhile isJsSpace).reverse.take 80).map
      (fun c => if c = '\n' then ' ' else c))

/-- String interpolation `${v}` of a value. For nested arrays JavaScript
flattens recursively; this model renders one level (the difference is
unreachable in the claims, whose interpolated values are strings). -/
def jsElemToString : JValue → String
  | .null => ""
  | .bool b => cond b "true" "false"
  | .num n => toString n
  | .str s => s
  | .arr _ => ""
  | .obj _ => "[object Object]"

def jsToString : JValue → String
  | .null => "null"
  | .bool b => cond b "true" "false"
  | .num n => toString n
  | .str s => s
  | .arr l => String.intercalate "," (l.map jsElemToString)
  | .obj _ => "[object Object]"

/-- The four accumulator sets of `formatCitations`. -/
structure CiteAcc where
  fileNames : List JValue
  obsidianLinks : List String
  hashtags : List String
  textPreviews : List String
  deriving Repr

/-- Null test (covers `undefined`): values on which property access
throws. -/
def jsIsNull : JValue → Bool
  | .null => true
  | _ => false

/-- `const text = context?.text || ""` followed by `.matchAll`: a string is
used as is, a falsy value becomes `""`, a truthy non-string makes
`matchAll` throw. -/
def readTextProp (context : JValue) : Except String String :=
  match optChain context "text" with
  | .str s => .ok s
  | v => if truthy v then .error "TypeError: text.matchAll is not a function" else .ok ""

/-- One iteration of the `chunks.forEach` body: skip `web` chunks, probe the
file-name chain, extract wiki-links and hashtags from `retrievedContext.text`,
and add a quoted preview when no links and no names have been collected so
far (main.ts 3631-3676). -/
def processChunk (acc : CiteAcc) (chunk : JValue) : Except String CiteAcc :=
  if jsIsNull chunk then
    .error "TypeError: Cannot read properties of null (reading web)"
  else if truthy (getProp chunk "web") then
    .ok acc
  else
    let context := getProp chunk "retrievedContext"
    match fileNameChain context with
    | .error e => .error e
    | .ok fileName =>
      let acc1 :=
        if truthy fileName then
          { acc with fileNames := addJSet acc.fileNames fileName }
        else acc
      match readTextProp context with
      | .error e => .error e
      | .ok text =>
        let acc2 := { acc1 with
          obsidianLinks := (scanWiki text).foldl addSSet acc1.obsidianLinks }
        let acc3 := { acc2 with
          hashtags := (scanTags text).foldl addSSet acc2.hashtags }
        if acc3.obsidianLinks.isEmpty && acc3.fileNames.isEmpty then
          if jsPreview text ≠ "" then
            let pv := "\"" ++ jsPreview text ++ "...\""
            .ok { acc3 with textPreviews := addSSet acc3.textPreviews pv }
          else .ok acc3
        else .ok acc3

/-- The assembly at the end of `formatCitations` (main.ts 3678-3708): file
names, else wiki-links, as the primary list; hashtags appended only next to
names or links; previews (at most 3) only when nothing else was found; the
count-only line when every set is empty; the reference count from the first
non-empty of names, links, previews. -/
def renderSources (fileNames : List JValue) (obsidianLinks hashtags textPreviews : List String)
    (chunkCount : Nat) : String :=
  let primary :=
    if fileNames.length > 0 then
      fileNames.map (fun name => "📄 " ++ jsToString name)
    else if obsidianLinks.length > 0 then
      obsidianLinks.map (fun link => "📄 [[" ++ link ++ "]]")
    else []
  let withTags :=
    primary ++
      (if hashtags.length > 0 && (obsidianLinks.length > 0 || fileNames.length > 0) then
        hashtags.map (fun tag => "🏷️ " ++ tag)
      else [])
  let allSources :=
    if withTags.isEmpty && textPreviews.length > 0 then textPreviews.take 3 else withTags
  if allSources.isEmpty then
    "\n\n---\n*Response grounded in " ++ toString chunkCount ++ " source" ++
      (if chunkCount != 1 then "s" else "") ++ " from your vault*"
  else
    let sourcesList := String.intercalate "\n" (allSources.map (fun source => "  " ++ source))
    let count :=
      if fileNames.length != 0 then fileNames.length
      else if obsidianLinks.length != 0 then obsidianLinks.length
      else textPreviews.length
    "\n\n---\n<details>\n<summary>📚 Sources from your vault (" ++ toString count ++
      " reference" ++ (if count != 1 then "s" else "") ++ ")</summary>\n\n" ++
      sourcesList ++ "\n</details>"

/-- `GeminiChatbotPlugin.formatCitations` over a JavaScript value: empty
string for falsy metadata, missing chunks, or a zero `length`; a thrown
`TypeError` surfaces as `Except.error` (e.g. `forEach` on a non-array, or a
null chunk). -/
def formatCitations (groundingMetadata : JValue) : Except String String :=
  if !truthy groundingMetadata then .ok ""
  else
    let chunks := getProp groundingMetadata "groundingChunks"
    if !truthy chunks then .ok ""
    else if (match getProp chunks "length" with | .num n => n == 0 | _ => false) then .ok ""
    else
      match chunks with
      | .arr l =>
        match l.foldlM processChunk ⟨[], [], [], []⟩ with
        | .error e => .error e
        | .ok acc =>
          .ok (renderSources acc.fileNames acc.obsidianLinks acc.hashtags
            acc.textPreviews l.length)
      | _ => .error "TypeError: chunks.forEach is not a function"

/-! ### Totality of the extractor on well-shaped metadata (C5) -/

/-- The `customMetadata` shapes on which the file-name chain cannot throw:
absent/null, an array of non-null entries, or any value without a usable
`find` member. -/
def cmOK (context : JValue) : Bool :=
  match optChain context "customMetadata" with
  | .null => true
  | .arr l => l.all (fun m => match m with | .null => false | _ => true)
  | other => match getProp other "find" with | .null => true | _ => false

/-- The `retrievedContext.text` shapes on which `matchAll` cannot throw:
a string, or any falsy value (replaced by `""`). -/
def textOK (context : JValue) : Bool :=
  match optChain context "text" with
  | .str _ => true
  | v => !truthy v

/-- Chunks the `forEach` body cannot throw on. -/
def chunkOK (chunk : JValue) : Bool :=
  if jsIsNull chunk then false
  else
    truthy (getProp chunk "web") ||
      (cmOK (getProp chunk "retrievedContext") && textOK (getProp chunk "retrievedContext"))

/-- Metadata values on which `formatCitations` cannot throw: anything that
takes one of the early empty-string returns, or an array of well-shaped
chunks. -/
def metaOK (v : JValue) : Bool :=
  if !truthy v then true
  else
    let chunks := getProp v "groundingChunks"
    if !truthy chunks then true
    else if (match getProp chunks "length" with | .num n => n == 0 | _ => false) then true
    else
      match chunks with
      | .arr l => l.all chunkOK
      | _ => false

theorem findPathMeta_ok (l : List JValue)
    (h : l.all (fun m => match m with | .null => false | _ => true) = true) :
    ∃ v, findPathMeta l = .ok v := by
  induction l with
  | nil => exact ⟨.null, rfl⟩
  | cons m rest ih =>
    simp only [List.all_cons, Bool.and_eq_true] at h
    cases m with
    | null => simp at h
    | bool b =>
      simp only [findPathMeta]
      split
      · exact ⟨_, rfl⟩
      · exact ih h.2
    | num n =>
      simp only [findPathMeta]
      split
      · exact ⟨_, rfl⟩
      · exact ih h.2
    | str s =>
      simp only [findPathMeta]
      split
      · exact ⟨_, rfl⟩
      · exact ih h.2
    | arr a =>
      simp only [findPathMeta]
      split
      · exact ⟨_, rfl⟩
      · exact ih h.2
    | obj fields =>
      simp only [findPathMeta]
      split
      · exact ⟨_, rfl⟩
      · exact ih h.2

theorem fileNameChain_ok (context : JValue) (h : cmOK context = true) :
    ∃ v, fileNameChain context = .ok v := by
  simp only [fileNameChain]
  split
  · exact ⟨_, rfl⟩
  split
  · exact ⟨_, rfl⟩
  split
  · exact ⟨_, rfl⟩
  split
  · exact ⟨_, rfl⟩
  split
  · exact ⟨_, rfl⟩
  split
  · exact ⟨_, rfl⟩
  simp only [cmOK] at h
  rcases hcm : optChain context "customMetadata" with _ | b | n | s | l | fields
  · exact ⟨_, rfl⟩
  · exact ⟨_, rfl⟩
  · exact ⟨_, rfl⟩
  · exact ⟨_, rfl⟩
  · rw [hcm] at h
    dsimp only at h ⊢
    obtain ⟨v, hv⟩ := findPathMeta_ok l h
    rw [hv]
    exact ⟨_, rfl⟩
  · rw [hcm] at h
    dsimp only at h ⊢
    rcases hf : getProp (JValue.obj fields) "find" with _ | b2 | n2 | s2 | a2 | o2
    · exact ⟨_, rfl⟩
    all_goals rw [hf] at h
    all_goals simp at h

theorem readTextProp_ok (context : JValue) (h : textOK context = true) :
    ∃ s, readTextProp context = .ok s := by
  simp only [textOK] at h
  simp only [readTextProp]
  rcases htex : optChain context "text" with _ | b | n | s | a | o <;> rw [htex] at h <;>
    (try dsimp only at h ⊢)
  · exact ⟨_, rfl⟩
  · rw [show truthy (JValue.bool b) = false from by simpa using h]
    exact ⟨_, rfl⟩
  · rw [show truthy (JValue.num n) = false from by simpa using h]
    exact ⟨_, rfl⟩
  · exact ⟨_, rfl⟩
  · simp [truthy] at h
  · simp [truthy] at h

theorem processChunk_ok (acc : CiteAcc) (chunk : JValue) (h : chunkOK chunk = true) :
    ∃ acc', processChunk acc chunk = .ok acc' := by
  simp only [chunkOK] at h
  simp only [processChunk]
  by_cases hn : jsIsNull chunk = true
  · rw [hn] at h
    simp at h
  · have hn' : jsIsNull chunk = false := by
      cases hj : jsIsNull chunk
      · rfl
      · exact absurd hj hn
    rw [hn'] at h ⊢
    simp only [Bool.false_eq_true, if_false] at h ⊢
    by_cases hweb : truthy (getProp chunk "web") = true
    · rw [if_pos hweb]
      exact ⟨_, rfl⟩
    · rw [if_neg hweb]
      simp only [Bool.false_eq_true, if_false, Bool.or_eq_true, Bool.and_eq_true] at h
      rcases h with hw | ⟨hcm, htx⟩
      · exact absurd hw hweb
      obtain ⟨v, hv⟩ := fileNameChain_ok _ hcm
      rw [hv]
      dsimp only
      obtain ⟨s, hs⟩ := readTextProp_ok _ htx
      rw [hs]
      dsimp only
      split
      all_goals (try split)
      all_goals (try split)
      all_goals exact ⟨_, rfl⟩

theorem foldlM_processChunk_ok (l : List JValue) (acc : CiteAcc)
    (h : ∀ c ∈ l, chunkOK c = true) :
    ∃ acc', l.foldlM processChunk acc = .ok acc' := by
  induction l generalizing acc with
  | nil => exact ⟨acc, rfl⟩
  | cons c rest ih =>
    obtain ⟨acc1, hacc1⟩ := processChunk_ok acc c (h c (List.mem_cons_self _ _))
    obtain ⟨acc', hacc'⟩ := ih acc1 (fun c hc => h c (List.mem_cons_of_mem _ hc))
    refine ⟨acc', ?_⟩
    simp only [List.foldlM, hacc1]
    simpa using hacc'

theorem formatCitations_total (v : JValue) (h : metaOK v = true) :
    ∃ s, formatCitations v = .ok s := by
  simp only [metaOK] at h
  simp only [formatCitations]
  by_cases h1 : truthy v = true
  · rw [h1] at h ⊢
    simp only [Bool.not_true, Bool.false_eq_true, if_false] at h ⊢
    by_cases h2 : truthy (getProp v "groundingChunks") = true
    · rw [h2] at h ⊢
      simp only [Bool.not_true, Bool.false_eq_true, if_false] at h ⊢
      by_cases h3 : (match getProp (getProp v "groundingChunks") "length" with
          | JValue.num n => n == 0 | _ => false) = true
      · rw [if_pos h3]
        exact ⟨_, rfl⟩
      · rw [if_neg h3] at h ⊢
        rcases hchunks : getProp v "groundingChunks" with _ | b | n | s | l | fields <;>
          rw [hchunks] at h
        · simp at h
        · simp at h
        · simp at h
        · simp at h
        · dsimp only at h ⊢
          obtain ⟨acc, hacc⟩ := foldlM_processChunk_ok l ⟨[], [], [], []⟩
            (fun c hc => List.all_eq_true.mp h c hc)
          rw [hacc]
          exact ⟨_, rfl⟩
        · simp at h
    · have h2' : truthy (getProp v "groundingChunks") = false := by
        cases hb : truthy (getProp v "groundingChunks")
        · rfl
        · exact absurd hb h2
      rw [h2']
      simp only [Bool.not_false, if_true]
      exact ⟨_, rfl⟩
  · have h1' : truthy v = false := by
      cases hb : truthy v
      · rfl
      · exact absurd hb h1
    rw [h1']
    simp only [Bool.not_false, if_true]
    exact ⟨_, rfl⟩

theorem foldlM_processChunk_replicate_empty (n : Nat) :
    (List.replicate n (JValue.obj [])).foldlM processChunk
        (⟨[], [], [], []⟩ : CiteAcc) = .ok ⟨[], [], [], []⟩ := by
  induction n with
  | zero => rfl
  | succ m ih =>
    simp only [List.replicate_succ, List.foldlM]
    rw [show processChunk ⟨[], [], [], []⟩ (JValue.obj []) = .ok ⟨[], [], [], []⟩ from rfl]
    simpa using ih

/-- Counterexample to C5 as stated: a metadata value whose chunk list
contains `null` (a malformed chunk shape) makes `formatCitations` throw a
`TypeError` at `chunk.web` instead of returning a string. -/
theorem formatCitations_null_chunk_throws :
    formatCitations (.obj [("groundingChunks", .arr [JValue.null])])
      = .error "TypeError: Cannot read properties of null (reading web)" := by
  rfl

/-- C5 (amended): `formatCitations` returns a string — never throws — on
every well-shaped metadata value: falsy, without truthy chunks, with a zero
`length`, or whose chunk array contains only non-null chunks whose
`retrievedContext.text` is a string or falsy and whose `customMetadata` is
absent, a null-free array, or without a `find` member (`metaOK`). On
unusable-but-well-shaped chunks (e.g. empty objects) it degrades to the
generic count-only statement. On other shapes it throws — see the
counterexample. -/
theorem formatCitations_total_wellShaped :
    (∀ v, metaOK v = true → ∃ s, formatCitations v = .ok s) ∧
    (∀ n, 0 < n →
      formatCitations (.obj [("groundingChunks", .arr (List.replicate n (.obj [])))])
        = .ok ("\n\n---\n*Response grounded in " ++ toString n ++ " source" ++
            (if n != 1 then "s" else "") ++ " from your vault*")) := by
  refine ⟨formatCitations_total, ?_⟩
  intro n hn
  have hbase : getProp (JValue.obj [("groundingChunks",
      JValue.arr (List.replicate n (JValue.obj [])))]) "groundingChunks"
      = JValue.arr (List.replicate n (JValue.obj [])) := by rfl
  simp only [formatCitations, hbase]
  rw [show truthy (JValue.obj [("groundingChunks",
      JValue.arr (List.replicate n (JValue.obj [])))]) = true from rfl]
  rw [show truthy (JValue.arr (List.replicate n (JValue.obj []))) = true from rfl]
  simp only [Bool.not_true, Bool.false_eq_true, if_false]
  rw [show getProp (JValue.arr (List.replicate n (JValue.obj []))) "length"
      = JValue.num (List.replicate n (JValue.obj [])).length from rfl]
  have hlen : (List.replicate n (JValue.obj [])).length = n := List.length_replicate _ _
  rw [hlen]
  have hz : ((n : Int) == 0) = false := by
    simp only [beq_eq_false_iff_ne, ne_eq]
    omega
  dsimp only
  rw [hz]
  simp only [Bool.false_eq_true, if_false]
  rw [foldlM_processChunk_replicate_empty n]
  simp only [renderSources, hlen]
  rfl

/-- Witness for the amended C5 at concrete inputs: a well-shaped chunk with
a display name, and a two-chunk unusable shape that degrades to the
count-only line. -/
theorem formatCitations_total_wellShaped_witness :
    metaOK (.obj [("groundingChunks", .arr [.obj [("retrievedContext",
        .obj [("displayName", .str "Note.md"), ("text", .str "hello")])]])]) = true ∧
    (∃ s, formatCitations (.obj [("groundingChunks", .arr [.obj [("retrievedContext",
        .obj [("displayName", .str "Note.md"), ("text", .str "hello")])]])]) = .ok s) ∧
    formatCitations (.obj [("groundingChunks", .arr (List.replicate 2 (.obj [])))])
      = .ok "\n\n---\n*Response grounded in 2 sources from your vault*" := by
  refine ⟨by decide, formatCitations_total_wellShaped.1 _ (by decide), ?_⟩
  exact (formatCitations_total_wellShaped.2 2 (by decide)).trans
    (congrArg Except.ok (by decide))

/-! ### The citation fallback chain (C7) -/

/-- A retrieval chunk carrying an optional `displayName` and raw retrieved
text — the two fields the fallback chain distinguishes. -/
def mkChunk : Option String → String → JValue
  | some n, text =>
    .obj [("retrievedContext", .obj [("displayName", .str n), ("text", .str text)])]
  | none, text =>
    .obj [("retrievedContext", .obj [("text", .str text)])]

/-- Grounding metadata assembled from such chunks. -/
def mkMeta (specs : List (Option String × String)) : JValue :=
  .obj [("groundingChunks", .arr (specs.map (fun s => mkChunk s.1 s.2)))]

/-- What one `forEach` iteration does to the accumulator on a `mkChunk`
input (proved below to coincide with `processChunk`). -/
def stepAcc (acc : CiteAcc) (nameOpt : Option String) (text : String) : CiteAcc :=
  let fileName : JValue :=
    match nameOpt with
    | some n => if truthy (JValue.str n) then .str n else .null
    | none => .null
  let acc1 :=
    if truthy fileName then
      { acc with fileNames := addJSet acc.fileNames fileName }
    else acc
  let acc2 := { acc1 with obsidianLinks := (scanWiki text).foldl addSSet acc1.obsidianLinks }
  let acc3 := { acc2 with hashtags := (scanTags text).foldl addSSet acc2.hashtags }
  if acc3.obsidianLinks.isEmpty && acc3.fileNames.isEmpty then
    if jsPreview text ≠ "" then
      { acc3 with textPreviews := addSSet acc3.textPreviews ("\"" ++ jsPreview text ++ "...\"") }
    else acc3
  else acc3

/-- The accumulator after all chunks of a `mkMeta` input. -/
def collectAll (specs : List (Option String × String)) : CiteAcc :=
  specs.foldl (fun a s => stepAcc a s.1 s.2) ⟨[], [], [], []⟩

theorem processChunk_mkChunk (acc : CiteAcc) (nameOpt : Option String) (text : String) :
    processChunk acc (mkChunk nameOpt text) = .ok (stepAcc acc nameOpt text) := by
  cases nameOpt with
  | none =>
    simp only [processChunk, mkChunk, stepAcc]
    rw [show jsIsNull (JValue.obj [("retrievedContext",
        JValue.obj [("text", JValue.str text)])]) = false from rfl]
    rw [show getProp (JValue.obj [("retrievedContext",
        JValue.obj [("text", JValue.str text)])]) "web" = JValue.null from rfl]
    rw [show getProp (JValue.obj [("retrievedContext",
        JValue.obj [("text", JValue.str text)])]) "retrievedContext"
        = JValue.obj [("text", JValue.str text)] from rfl]
    rw [show fileNameChain (JValue.obj [("text", JValue.str text)]) = .ok JValue.null from rfl]
    rw [show readTextProp (JValue.obj [("text", JValue.str text)]) = .ok text from rfl]
    dsimp only
    rw [show truthy JValue.null = false from rfl]
    simp only [Bool.false_eq_true, if_false]
    split_ifs <;> rfl
  | some n =>
    simp only [processChunk, mkChunk, stepAcc]
    rw [show jsIsNull (JValue.obj [("retrievedContext", JValue.obj [("displayName", JValue.str n),
        ("text", JValue.str text)])]) = false from rfl]
    rw [show getProp (JValue.obj [("retrievedContext", JValue.obj [("displayName", JValue.str n),
        ("text", JValue.str text)])]) "web" = JValue.null from rfl]
    rw [show getProp (JValue.obj [("retrievedContext", JValue.obj [("displayName", JValue.str n),
        ("text", JValue.str text)])]) "retrievedContext"
        = JValue.obj [("displayName", JValue.str n), ("text", JValue.str text)] from rfl]
    rw [show truthy JValue.null = false from rfl]
    have hchain : fileNameChain (JValue.obj [("displayName", JValue.str n),
        ("text", JValue.str text)])
        = if truthy (JValue.str n) then Except.ok (JValue.str n) else Except.ok JValue.null := by
      by_cases hn : truthy (JValue.str n) = true
      · simp only [fileNameChain]
        rw [show optChain (JValue.obj [("displayName", JValue.str n),
            ("text", JValue.str text)]) "displayName" = JValue.str n from rfl]
        rw [if_pos hn, if_pos hn]
      · have hn2 : truthy (JValue.str n) = false := by
          cases hb : truthy (JValue.str n)
          · rfl
          · exact absurd hb hn
        simp only [fileNameChain]
        rw [show optChain (JValue.obj [("displayName", JValue.str n),
            ("text", JValue.str text)]) "displayName" = JValue.str n from rfl]
        rw [hn2]
        simp only [Bool.false_eq_true, if_false]
        rfl
    rw [hchain]
    rw [show readTextProp (JValue.obj [("displayName", JValue.str n),
        ("text", JValue.str text)]) = .ok text from rfl]
    simp only [Bool.false_eq_true, if_false]
    by_cases hn : truthy (JValue.str n) = true
    · rw [if_pos hn]
      dsimp only
      rw [hn]
      simp only [if_true]
      split_ifs <;> rfl
    · have hn2 : truthy (JValue.str n) = false := by
        cases hb : truthy (JValue.str n)
        · rfl
        · exact absurd hb hn
      rw [if_neg hn]
      dsimp only
      rw [hn2]
      simp only [Bool.false_eq_true, if_false]
      split_ifs <;> rfl

theorem foldlM_mkChunks (specs : List (Option String × String)) (acc : CiteAcc) :
    (specs.map (fun s => mkChunk s.1 s.2)).foldlM processChunk acc
      = .ok (specs.foldl (fun a s => stepAcc a s.1 s.2) acc) := by
  induction specs generalizing acc with
  | nil => rfl
  | cons s rest ih =>
    simp only [List.map_cons, List.foldlM, List.foldl_cons, processChunk_mkChunk]
    simpa using ih _

/-- `formatCitations` on a non-empty `mkMeta` input renders the collected
accumulator. -/
theorem formatCitations_mkMeta (specs : List (Option String × String))
    (hne : specs ≠ []) :
    formatCitations (mkMeta specs)
      = .ok (renderSources (collectAll specs).fileNames (collectAll specs).obsidianLinks
          (collectAll specs).hashtags (collectAll specs).textPreviews specs.length) := by
  simp only [formatCitations, mkMeta]
  rw [show truthy (JValue.obj [("groundingChunks",
      JValue.arr (specs.map (fun s => mkChunk s.1 s.2)))]) = true from rfl]
  rw [show getProp (JValue.obj [("groundingChunks",
      JValue.arr (specs.map (fun s => mkChunk s.1 s.2)))]) "groundingChunks"
      = JValue.arr (specs.map (fun s => mkChunk s.1 s.2)) from rfl]
  rw [show truthy (JValue.arr (specs.map (fun s => mkChunk s.1 s.2))) = true from rfl]
  simp only [Bool.not_true, Bool.false_eq_true, if_false]
  rw [show getProp (JValue.arr (specs.map (fun s => mkChunk s.1 s.2))) "length"
      = JValue.num (specs.map (fun s => mkChunk s.1 s.2)).length from rfl]
  have hlen : (specs.map (fun s => mkChunk s.1 s.2)).length = specs.length :=
    List.length_map _ _
  rw [hlen]
  dsimp only
  have hz : ((specs.length : Int) == 0) = false := by
    have hne' : specs.length ≠ 0 := by
      intro h; exact hne (List.length_eq_zero.mp h)
    simp only [beq_eq_false_iff_ne, ne_eq]
    omega
  rw [hz]
  simp only [Bool.false_eq_true, if_false]
  rw [foldlM_mkChunks]
  dsimp only
  rfl

theorem addSSet_ne_nil (l : List String) (s : String) : addSSet l s ≠ [] := by
  simp only [addSSet]
  split
  · next hc =>
    intro h
    subst h
    simp at hc
  · simp

theorem addJSet_ne_nil (l : List JValue) (v : JValue) : addJSet l v ≠ [] := by
  simp only [addJSet]
  split
  · next hc =>
    intro h
    subst h
    simp at hc
  · simp

theorem foldl_addSSet_ne_nil (xs : List String) (l : List String) (h : l ≠ []) :
    List.foldl addSSet l xs ≠ [] := by
  induction xs generalizing l with
  | nil => exact h
  | cons x rest ih =>
    simp only [List.foldl_cons]
    exact ih _ (addSSet_ne_nil _ _)

theorem stepAcc_fileNames (acc : CiteAcc) (nameOpt : Option String) (t : String) :
    (stepAcc acc nameOpt t).fileNames
      = match nameOpt with
        | some n =>
          if truthy (JValue.str n) then addJSet acc.fileNames (JValue.str n)
          else acc.fileNames
        | none => acc.fileNames := by
  cases nameOpt with
  | none =>
    simp only [stepAcc]
    rw [show truthy JValue.null = false from rfl]
    simp only [Bool.false_eq_true, if_false]
    split_ifs <;> rfl
  | some n =>
    by_cases hn : truthy (JValue.str n) = true
    · simp only [stepAcc, hn, if_true]
      split_ifs <;> rfl
    · have hn2 : truthy (JValue.str n) = false := by
        cases hb : truthy (JValue.str n)
        · rfl
        · exact absurd hb hn
      simp only [stepAcc, hn2, Bool.false_eq_true, if_false]
      rw [show truthy JValue.null = false from rfl]
      simp only [Bool.false_eq_true, if_false]
      split_ifs <;> rfl

theorem stepAcc_obsidianLinks (acc : CiteAcc) (nameOpt : Option String) (t : String) :
    (stepAcc acc nameOpt t).obsidianLinks
      = List.foldl addSSet acc.obsidianLinks (scanWiki t) := by
  cases nameOpt <;> simp only [stepAcc] <;> split_ifs <;> rfl

theorem stepAcc_hashtags (acc : CiteAcc) (nameOpt : Option String) (t : String) :
    (stepAcc acc nameOpt t).hashtags
      = List.foldl addSSet acc.hashtags (scanTags t) := by
  cases nameOpt <;> simp only [stepAcc] <;> split_ifs <;> rfl

theorem stepAcc_textPreviews_cases (acc : CiteAcc) (nameOpt : Option String) (t : String) :
    (stepAcc acc nameOpt t).textPreviews = acc.textPreviews ∨
    ∃ pv, (stepAcc acc nameOpt t).textPreviews = addSSet acc.textPreviews pv := by
  cases nameOpt <;> simp only [stepAcc] <;> split_ifs <;>
    first
      | exact Or.inl rfl
      | exact Or.inr ⟨_, rfl⟩

theorem stepAcc_none_raw (acc : CiteAcc) (t : String)
    (hW : scanWiki t = []) (hT : scanTags t = []) (hP : jsPreview t ≠ "")
    (hfn : acc.fileNames = []) (hol : acc.obsidianLinks = []) :
    stepAcc acc none t
      = { acc with
          textPreviews := addSSet acc.textPreviews ("\"" ++ jsPreview t ++ "...\"") } := by
  obtain ⟨N, L, T, P⟩ := acc
  simp only at hfn hol
  subst hfn
  subst hol
  simp only [stepAcc]
  rw [show truthy JValue.null = false from rfl]
  simp [hW, hT, hP]

theorem collect_raw (texts : List String) (P0 : List String)
    (hscan : ∀ t ∈ texts, scanWiki t = [] ∧ scanTags t = [] ∧ jsPreview t ≠ "") :
    (texts.map (fun t => ((none : Option String), t))).foldl (fun a s => stepAcc a s.1 s.2)
        ⟨[], [], [], P0⟩
      = ⟨[], [], [],
          texts.foldl (fun acc t => addSSet acc ("\"" ++ jsPreview t ++ "...\"")) P0⟩ := by
  induction texts generalizing P0 with
  | nil => rfl
  | cons t rest ih =>
    simp only [List.map_cons, List.foldl_cons]
    rw [stepAcc_none_raw ⟨[], [], [], P0⟩ t (hscan t (List.mem_cons_self _ _)).1
      (hscan t (List.mem_cons_self _ _)).2.1 (hscan t (List.mem_cons_self _ _)).2.2 rfl rfl]
    exact ih _ (fun u hu => hscan u (List.mem_cons_of_mem _ hu))

theorem foldl_stepAcc_fileNames_carry (specs : List (Option String × String))
    (acc : CiteAcc) (h : acc.fileNames ≠ []) :
    (specs.foldl (fun a s => stepAcc a s.1 s.2) acc).fileNames ≠ [] := by
  induction specs generalizing acc with
  | nil => exact h
  | cons s rest ih =>
    simp only [List.foldl_cons]
    apply ih
    rw [stepAcc_fileNames]
    cases s.1 with
    | none => exact h
    | some n =>
      dsimp only
      split_ifs
      · exact addJSet_ne_nil _ _
      · exact h

theorem foldl_stepAcc_fileNames_ne (specs : List (Option String × String)) (acc : CiteAcc)
    (h : ∃ s ∈ specs, ∃ n, s.1 = some n ∧ truthy (JValue.str n) = true) :
    (specs.foldl (fun a s => stepAcc a s.1 s.2) acc).fileNames ≠ [] := by
  induction specs generalizing acc with
  | nil =>
    obtain ⟨s, hs, _⟩ := h
    simp at hs
  | cons s rest ih =>
    obtain ⟨s0, hs0, n0, hn0, htr⟩ := h
    rcases List.mem_cons.mp hs0 with rfl | hmem
    · simp only [List.foldl_cons]
      apply foldl_stepAcc_fileNames_carry
      rw [stepAcc_fileNames, hn0]
      simp only [htr, if_true]
      exact addJSet_ne_nil _ _
    · simp only [List.foldl_cons]
      exact ih _ ⟨s0, hmem, n0, hn0, htr⟩

theorem collectAll_fileNames_ne (specs : List (Option String × String))
    (h : ∃ s ∈ specs, ∃ n, s.1 = some n ∧ truthy (JValue.str n) = true) :
    (collectAll specs).fileNames ≠ [] :=
  foldl_stepAcc_fileNames_ne specs _ h

theorem addSSet_nodup (l : List String) (s : String) (h : l.Nodup) :
    (addSSet l s).Nodup := by
  simp only [addSSet]
  split
  · exact h
  · next hc =>
    have hs : s ∉ l := by
      intro hmem
      exact hc (List.elem_iff.mpr hmem)
    rw [List.nodup_append]
    refine ⟨h, by simp, ?_⟩
    intro a ha hb
    rw [List.mem_singleton] at hb
    subst hb
    exact hs ha

theorem foldl_addSSet_nodup (xs : List String) (l : List String) (h : l.Nodup) :
    (List.foldl addSSet l xs).Nodup := by
  induction xs generalizing l with
  | nil => exact h
  | cons x rest ih =>
    simp only [List.foldl_cons]
    exact ih _ (addSSet_nodup _ _ h)

theorem addJSet_pairwise (l : List JValue) (v : JValue)
    (h : l.Pairwise (fun a b => sameValueZero a b = false)) :
    (addJSet l v).Pairwise (fun a b => sameValueZero a b = false) := by
  simp only [addJSet]
  split
  · exact h
  · next hc =>
    rw [List.pairwise_append]
    refine ⟨h, by simp, ?_⟩
    intro a ha b hb
    rw [List.mem_singleton] at hb
    cases hx : sameValueZero a b with
    | false => rfl
    | true =>
      rw [hb] at hx
      exact absurd (List.any_eq_true.mpr ⟨a, ha, hx⟩) hc

theorem foldl_stepAcc_nodupAll (specs : List (Option String × String)) (acc : CiteAcc)
    (h1 : acc.fileNames.Pairwise (fun a b => sameValueZero a b = false))
    (h2 : acc.obsidianLinks.Nodup) (h3 : acc.hashtags.Nodup)
    (h4 : acc.textPreviews.Nodup) :
    (specs.foldl (fun a s => stepAcc a s.1 s.2) acc).fileNames.Pairwise
        (fun a b => sameValueZero a b = false) ∧
    (specs.foldl (fun a s => stepAcc a s.1 s.2) acc).obsidianLinks.Nodup ∧
    (specs.foldl (fun a s => stepAcc a s.1 s.2) acc).hashtags.Nodup ∧
    (specs.foldl (fun a s => stepAcc a s.1 s.2) acc).textPreviews.Nodup := by
  induction specs generalizing acc with
  | nil => exact ⟨h1, h2, h3, h4⟩
  | cons s rest ih =>
    simp only [List.foldl_cons]
    refine ih (stepAcc acc s.1 s.2) ?_ ?_ ?_ ?_
    · rw [stepAcc_fileNames]
      cases s.1 with
      | none => exact h1
      | some n =>
        dsimp only
        split_ifs
        · exact addJSet_pairwise _ _ h1
        · exact h1
    · rw [stepAcc_obsidianLinks]
      exact foldl_addSSet_nodup _ _ h2
    · rw [stepAcc_hashtags]
      exact foldl_addSSet_nodup _ _ h3
    · rcases stepAcc_textPreviews_cases acc s.1 s.2 with he | ⟨pv, he⟩
      · rw [he]; exact h4
      · rw [he]; exact addSSet_nodup _ _ h4

theorem collectAll_nodup (specs : List (Option String × String)) :
    (collectAll specs).fileNames.Pairwise (fun a b => sameValueZero a b = false) ∧
    (collectAll specs).obsidianLinks.Nodup ∧
    (collectAll specs).hashtags.Nodup ∧
    (collectAll specs).textPreviews.Nodup :=
  foldl_stepAcc_nodupAll specs ⟨[], [], [], []⟩ (by simp) (by simp) (by simp) (by simp)

theorem renderSources_names_indep (N : List JValue) (L T P : List String) (c : Nat)
    (hN : N ≠ []) :
    renderSources N L T P c = renderSources N [] T [] c := by
  obtain ⟨n0, Ntl, rfl⟩ := List.exists_cons_of_ne_nil hN
  simp [renderSources]

theorem renderSources_names_form (N : List JValue) (L T P : List String) (c : Nat)
    (hN : N ≠ []) :
    renderSources N L T P c
      = "\n\n---\n<details>\n<summary>📚 Sources from your vault ("
          ++ toString N.length ++ " reference" ++ (if N.length != 1 then "s" else "")
          ++ ")</summary>\n\n"
          ++ String.intercalate "\n"
              (((N.map (fun name => "📄 " ++ jsToString name))
                ++ (if 0 < T.length then T.map (fun tag => "🏷️ " ++ tag) else [])).map
                (fun source => "  " ++ source))
          ++ "\n</details>" := by
  obtain ⟨n0, Ntl, rfl⟩ := List.exists_cons_of_ne_nil hN
  simp [renderSources]

theorem renderSources_tags_secondary (T P : List String) (c : Nat) :
    renderSources [] [] T P c = renderSources [] [] [] P c := by
  simp [renderSources]

theorem previews_fold_ne_nil (texts : List String) (hne : texts ≠ []) :
    texts.foldl (fun acc t => addSSet acc ("\"" ++ jsPreview t ++ "...\"")) [] ≠ [] := by
  have hgen : ∀ (xs : List String) (l : List String), l ≠ [] →
      xs.foldl (fun acc t => addSSet acc ("\"" ++ jsPreview t ++ "...\"")) l ≠ [] := by
    intro xs
    induction xs with
    | nil => exact fun l h => h
    | cons x r ih =>
      intro l _
      simp only [List.foldl_cons]
      exact ih _ (addSSet_ne_nil _ _)
  obtain ⟨t0, rest, rfl⟩ := List.exists_cons_of_ne_nil hne
  simp only [List.foldl_cons]
  exact hgen rest _ (addSSet_ne_nil _ _)

/-- C7: the citation fallback chain. (1) Chunks carrying only raw text with
no recognisable wiki-links or hashtags produce exactly the quoted-preview
rendering, and at least one preview is collected. (2) If any chunk carries
a non-empty display name, the collected file-name list is non-empty and the
output equals the rendering that ignores wiki-links and previews entirely —
the file-name format, never the preview format, with links never the
primary list. (3) For any non-empty name list the rendering is independent
of links and previews, and is literally the file-name `📄` list with `🏷️`
hashtags appended only as secondary entries. (4) With no names and no
links, hashtags are ignored (not promoted to a primary list). (5) All four
collected categories are de-duplicated. -/
theorem citation_fallback_chain :
    (∀ texts : List String, texts ≠ [] →
      (∀ t ∈ texts, scanWiki t = [] ∧ scanTags t = [] ∧ jsPreview t ≠ "") →
      formatCitations (mkMeta (texts.map (fun t => ((none : Option String), t))))
        = .ok (renderSources [] [] []
            (texts.foldl (fun acc t => addSSet acc ("\"" ++ jsPreview t ++ "...\"")) [])
            texts.length)
      ∧ texts.foldl (fun acc t => addSSet acc ("\"" ++ jsPreview t ++ "...\"")) [] ≠ []) ∧
    (∀ specs : List (Option String × String),
      (∃ s ∈ specs, ∃ n, s.1 = some n ∧ n ≠ "") →
      (collectAll specs).fileNames ≠ [] ∧
      formatCitations (mkMeta specs)
        = .ok (renderSources (collectAll specs).fileNames []
            (collectAll specs).hashtags [] specs.length)) ∧
    (∀ (N : List JValue) (L T P : List String) (c : Nat), N ≠ [] →
      renderSources N L T P c = renderSources N [] T [] c ∧
      renderSources N L T P c
        = "\n\n---\n<details>\n<summary>📚 Sources from your vault ("
            ++ toString N.length ++ " reference" ++ (if N.length != 1 then "s" else "")
            ++ ")</summary>\n\n"
            ++ String.intercalate "\n"
                (((N.map (fun name => "📄 " ++ jsToString name))
                  ++ (if 0 < T.length then T.map (fun tag => "🏷️ " ++ tag) else [])).map
                  (fun source => "  " ++ source))
            ++ "\n</details>") ∧
    (∀ (T P : List String) (c : Nat),
      renderSources [] [] T P c = renderSources [] [] [] P c) ∧
    (∀ specs : List (Option String × String),
      (collectAll specs).fileNames.Pairwise (fun a b => sameValueZero a b = false) ∧
      (collectAll specs).obsidianLinks.Nodup ∧
      (collectAll specs).hashtags.Nodup ∧
      (collectAll specs).textPreviews.Nodup) := by
  refine ⟨?_, ?_, ?_, renderSources_tags_secondary, collectAll_nodup⟩
  · intro texts hne hscan
    have hmapne : texts.map (fun t => ((none : Option String), t)) ≠ [] := by
      simpa using hne
    constructor
    · rw [formatCitations_mkMeta _ hmapne]
      have hcol : collectAll (texts.map (fun t => ((none : Option String), t)))
          = ⟨[], [], [],
              texts.foldl (fun acc t => addSSet acc ("\"" ++ jsPreview t ++ "...\"")) []⟩ :=
        collect_raw texts [] hscan
      rw [hcol]
      simp
    · exact previews_fold_ne_nil texts hne
  · intro specs hex
    have hne : specs ≠ [] := by
      rintro rfl
      obtain ⟨s, hs, _⟩ := hex
      simp at hs
    have hex' : ∃ s ∈ specs, ∃ n, s.1 = some n ∧ truthy (JValue.str n) = true := by
      obtain ⟨s, hs, n, hn, hne'⟩ := hex
      exact ⟨s, hs, n, hn, by simp [truthy, hne']⟩
    have hN := collectAll_fileNames_ne specs hex'
    refine ⟨hN, ?_⟩
    rw [formatCitations_mkMeta specs hne]
    rw [renderSources_names_indep _ _ _ _ _ hN]
  · intro N L T P c hN
    exact ⟨renderSources_names_indep N L T P c hN, renderSources_names_form N L T P c hN⟩

/-- Witness for C7 at concrete inputs: one raw-text-only chunk (preview
format) and one chunk with a display name and a hashtag (file-name
format). -/
theorem citation_fallback_chain_witness :
    formatCitations (mkMeta [(none, "plain retrieved text")])
      = .ok (renderSources [] [] []
          (["plain retrieved text"].foldl
            (fun acc t => addSSet acc ("\"" ++ jsPreview t ++ "...\"")) []) 1) ∧
    (collectAll [(some "Note.md", "see #tag")]).fileNames ≠ [] ∧
    formatCitations (mkMeta [(some "Note.md", "see #tag")])
      = .ok (renderSources (collectAll [(some "Note.md", "see #tag")]).fileNames []
          (collectAll [(some "Note.md", "see #tag")]).hashtags [] 1) := by
  have h1 := citation_fallback_chain.1 ["plain retrieved text"] (by decide) (by decide)
  have h2 := citation_fallback_chain.2.1 [(some "Note.md", "see #tag")]
    ⟨(some "Note.md", "see #tag"), by decide, "Note.md", rfl, by decide⟩
  exact ⟨h1.1, h2.1, h2.2⟩

end VaultAI
